import Mathlib

/-!
# Verification of the play-core event relay engine

Shallow embedding of the selector-routing core of the `play-core` repository:
the merge helpers (`src/relay/helpers.ts`), the node identity registry and
listener index (`src/relay/event-target-identity.ts`), and the structural
pattern extractor with its LRU cache (`src/relay/parser/parser.ts`).

JavaScript strings are modelled as `List Char`, JS `Map`s as insertion-ordered
association lists, JS `Set`s as insertion-ordered duplicate-free lists, the
monotonic clock (`performance.now()`) as a natural-number parameter, and
thrown exceptions as `Except`.
-/

namespace PlayCore

/-- Character list of a string literal (JS strings are modelled as `List Char`). -/
def str (s : String) : List Char := s.data

/-- A thrown JavaScript exception (only the species matters to the model). -/
inductive JsError
  | typeError
  deriving DecidableEq, Repr

/-! ## helpers.ts : mergeSorted / mergeAllSorted -/

/-- Inner loop of `mergeSorted`, structurally recursive on the second operand.
`m` is the continuation merging the tail of the first operand. -/
def mergeGo {α : Type} (compare : α → α → Int) (x : α) (m : List α → List α) :
    List α → List α
  | [] => x :: m []
  | y :: ys => if compare x y ≤ 0 then x :: m (y :: ys) else y :: mergeGo compare x m ys

/-- `mergeSorted(a, b, compare)` from `helpers.ts`: standard two-way merge; the
head of `a` is emitted whenever `compare(a[i], b[j]) <= 0`, then the remainders
of both arrays are appended. -/
def mergeSorted {α : Type} (compare : α → α → Int) : List α → List α → List α
  | [], b => b
  | x :: xs, b => mergeGo compare x (mergeSorted compare xs) b

@[simp]
theorem mergeSorted_nil_left {α : Type} (compare : α → α → Int) (b : List α) :
    mergeSorted compare [] b = b := rfl

@[simp]
theorem mergeSorted_nil_right {α : Type} (compare : α → α → Int) (a : List α) :
    mergeSorted compare a [] = a := by
  induction a with
  | nil => rfl
  | cons x xs ih =>
      show x :: mergeSorted compare xs [] = x :: xs
      rw [ih]

theorem mergeSorted_cons_cons {α : Type} (compare : α → α → Int) (x y : α)
    (xs ys : List α) :
    mergeSorted compare (x :: xs) (y :: ys) =
      if compare x y ≤ 0 then x :: mergeSorted compare xs (y :: ys)
      else y :: mergeSorted compare (x :: xs) ys := rfl

/-- `mergeAllSorted(sortedGroups, compare)` from `helpers.ts`: left fold of
pairwise merges across the groups; empty groups are skipped (`continue`), a
`null` accumulator is replaced by a copy of the first non-empty group, and a
still-`null` accumulator at the end yields `[]` (`result ?? []`). -/
def mergeAllSorted {α : Type} (compare : α → α → Int) (sortedGroups : List (List α)) :
    List α :=
  (sortedGroups.foldl
    (fun result group =>
      if group.isEmpty then result
      else
        match result with
        | none => some group
        | some r => some (mergeSorted compare r group))
    none).getD []

/-- The comparator used by `resolveListeners`:
`(a, b) => getTimestamp(a) - getTimestamp(b)`. -/
def tsCompare {α : Type} (ts : α → ℕ) (a b : α) : Int := (ts a : Int) - (ts b : Int)

theorem tsCompare_nonpos_iff {α : Type} (ts : α → ℕ) (a b : α) :
    tsCompare ts a b ≤ 0 ↔ ts a ≤ ts b := by
  unfold tsCompare; omega

/-! ### Generic merge lemmas -/

theorem mergeSorted_perm {α : Type} (compare : α → α → Int) :
    ∀ a b : List α, (mergeSorted compare a b).Perm (a ++ b) := by
  intro a
  induction a with
  | nil => intro b; simp
  | cons x xs ih =>
      intro b
      induction b with
      | nil => simp
      | cons y ys ihb =>
          rw [mergeSorted_cons_cons]
          by_cases h : compare x y ≤ 0
          · simpa [h] using (ih (y :: ys)).cons x
          · simp only [h, if_neg, if_false]
            exact (ihb.cons y).trans List.perm_middle.symm

theorem mergeSorted_length {α : Type} (compare : α → α → Int) (a b : List α) :
    (mergeSorted compare a b).length = a.length + b.length := by
  simpa using (mergeSorted_perm compare a b).length_eq

theorem sublist_mergeSorted_left {α : Type} (compare : α → α → Int) :
    ∀ a b : List α, a.Sublist (mergeSorted compare a b) := by
  intro a
  induction a with
  | nil => intro b; simp
  | cons x xs ih =>
      intro b
      induction b with
      | nil => simp
      | cons y ys ihb =>
          rw [mergeSorted_cons_cons]
          by_cases h : compare x y ≤ 0
          · simpa [h] using (ih (y :: ys)).cons₂ x
          · simpa [h] using ihb.cons y

theorem sublist_mergeSorted_right {α : Type} (compare : α → α → Int) :
    ∀ a b : List α, b.Sublist (mergeSorted compare a b) := by
  intro a
  induction a with
  | nil => intro b; simp
  | cons x xs ih =>
      intro b
      induction b with
      | nil => simp
      | cons y ys ihb =>
          rw [mergeSorted_cons_cons]
          by_cases h : compare x y ≤ 0
          · simpa [h] using (ih (y :: ys)).cons x
          · simpa [h] using ihb.cons₂ y

/-! ### Timestamp-ordered merge lemmas -/

theorem mergeSorted_sorted {α : Type} (ts : α → ℕ) :
    ∀ a b : List α,
      a.Sorted (fun u v => ts u ≤ ts v) → b.Sorted (fun u v => ts u ≤ ts v) →
      (mergeSorted (tsCompare ts) a b).Sorted (fun u v => ts u ≤ ts v) := by
  intro a
  induction a with
  | nil => intro b _ hb; simpa using hb
  | cons x xs ih =>
      intro b ha hb
      induction b with
      | nil => simpa using ha
      | cons y ys ihb =>
          rw [mergeSorted_cons_cons]
          rw [List.sorted_cons] at ha hb
          by_cases h : tsCompare ts x y ≤ 0
          · rw [if_pos h]
            rw [tsCompare_nonpos_iff] at h
            refine List.sorted_cons.2 ⟨?_, ih (y :: ys) ha.2 (List.sorted_cons.2 hb)⟩
            intro z hz
            have hz' : z ∈ xs ++ y :: ys :=
              (mergeSorted_perm (tsCompare ts) xs (y :: ys)).subset hz
            rcases List.mem_append.1 hz' with hzx | hzy
            · exact ha.1 z hzx
            · rcases List.mem_cons.1 hzy with rfl | hzys
              · exact h
              · exact le_trans h (hb.1 z hzys)
          · rw [if_neg h]
            rw [tsCompare_nonpos_iff] at h
            push_neg at h
            refine List.sorted_cons.2 ⟨?_, ihb hb.2⟩
            intro z hz
            have hz' : z ∈ (x :: xs) ++ ys :=
              (mergeSorted_perm (tsCompare ts) (x :: xs) ys).subset hz
            rcases List.mem_append.1 hz' with hzx | hzys
            · rcases List.mem_cons.1 hzx with rfl | hzxs
              · exact le_of_lt h
              · exact le_trans (le_of_lt h) (ha.1 z hzxs)
            · exact hb.1 z hzys

/-- Stability of the two-way merge: among the elements of any one timestamp
level `t`, all elements of the left operand precede all elements of the right
operand (`<=` in the source takes the left head on ties). Only the left
operand needs to be sorted. -/
theorem mergeSorted_stable {α : Type} (ts : α → ℕ) (t : ℕ) :
    ∀ a b : List α, a.Sorted (fun u v => ts u ≤ ts v) →
      (mergeSorted (tsCompare ts) a b).filter (fun x => ts x == t) =
        a.filter (fun x => ts x == t) ++ b.filter (fun x => ts x == t) := by
  intro a
  induction a with
  | nil => intro b _; simp
  | cons x xs ih =>
      intro b ha
      induction b with
      | nil => simp
      | cons y ys ihb =>
          rw [mergeSorted_cons_cons]
          rw [List.sorted_cons] at ha
          by_cases h : tsCompare ts x y ≤ 0
          · rw [if_pos h]
            by_cases hx : ts x = t
            · simp only [List.filter_cons, hx, beq_self_eq_true, if_pos, ih (y :: ys) ha.2,
                List.cons_append]
            · simp only [List.filter_cons, beq_iff_eq, hx, if_neg, ih (y :: ys) ha.2]
              simp [hx]
          · rw [if_neg h]
            rw [tsCompare_nonpos_iff] at h
            push_neg at h
            by_cases hy : ts y = t
            · have hxnil : (x :: xs).filter (fun z => ts z == t) = [] := by
                rw [List.filter_eq_nil_iff]
                intro z hz
                rcases List.mem_cons.1 hz with rfl | hzxs
                · simp only [beq_iff_eq]; omega
                · have := ha.1 z hzxs
                  simp only [beq_iff_eq]; omega
              have h1 : List.filter (fun z => ts z == t) (y :: ys) =
                  y :: List.filter (fun z => ts z == t) ys := by
                simp [List.filter_cons, hy]
              have h2 : List.filter (fun z => ts z == t)
                    (y :: mergeSorted (tsCompare ts) (x :: xs) ys) =
                  y :: List.filter (fun z => ts z == t)
                    (mergeSorted (tsCompare ts) (x :: xs) ys) := by
                simp [List.filter_cons, hy]
              rw [h2, ihb, hxnil, h1]
              simp
            · have h1 : List.filter (fun z => ts z == t) (y :: ys) =
                  List.filter (fun z => ts z == t) ys := by
                simp [List.filter_cons, hy]
              have h2 : List.filter (fun z => ts z == t)
                    (y :: mergeSorted (tsCompare ts) (x :: xs) ys) =
                  List.filter (fun z => ts z == t)
                    (mergeSorted (tsCompare ts) (x :: xs) ys) := by
                simp [List.filter_cons, hy]
              rw [h2, ihb, h1]

/-! ### Lemmas about the fold in mergeAllSorted -/

/-- The fold body of `mergeAllSorted`. -/
def mergeStep {α : Type} (compare : α → α → Int)
    (result : Option (List α)) (group : List α) : Option (List α) :=
  if group.isEmpty then result
  else
    match result with
    | none => some group
    | some r => some (mergeSorted compare r group)

theorem mergeAllSorted_eq_foldl {α : Type} (compare : α → α → Int)
    (sortedGroups : List (List α)) :
    mergeAllSorted compare sortedGroups =
      (sortedGroups.foldl (mergeStep compare) none).getD [] := rfl

theorem foldl_mergeStep_some {α : Type} (compare : α → α → Int) :
    ∀ (gs : List (List α)) (r : List α),
      gs.foldl (mergeStep compare) (some r) =
        some (gs.foldl (fun acc g => mergeSorted compare acc g) r) := by
  intro gs
  induction gs with
  | nil => intro r; rfl
  | cons g gs ih =>
      intro r
      by_cases hg : g.isEmpty
      · have hgnil : g = [] := List.isEmpty_iff.1 hg
        simp [mergeStep, hg, ih, hgnil]
      · simp [mergeStep, hg, ih]

theorem mergeAllSorted_eq_plain_foldl {α : Type} (compare : α → α → Int) :
    ∀ sortedGroups : List (List α),
      mergeAllSorted compare sortedGroups =
        sortedGroups.foldl (fun acc g => mergeSorted compare acc g) [] := by
  intro gs
  induction gs with
  | nil => rfl
  | cons g gs ih =>
      rw [mergeAllSorted_eq_foldl]
      by_cases hg : g.isEmpty
      · have hgnil : g = [] := List.isEmpty_iff.1 hg
        subst hgnil
        simp only [List.foldl_cons, mergeStep, List.isEmpty_nil, if_pos,
          mergeSorted_nil_right]
        rw [← mergeAllSorted_eq_foldl, ih]
      · have hmg : mergeSorted compare [] g = g := rfl
        simp [mergeStep, hg, foldl_mergeStep_some, hmg]

theorem foldl_merge_perm {α : Type} (compare : α → α → Int) :
    ∀ (gs : List (List α)) (acc : List α),
      (gs.foldl (fun r g => mergeSorted compare r g) acc).Perm (acc ++ gs.flatten) := by
  intro gs
  induction gs with
  | nil => intro acc; simp
  | cons g gs ih =>
      intro acc
      refine (ih (mergeSorted compare acc g)).trans ?_
      have h1 := (mergeSorted_perm compare acc g).append_right gs.flatten
      simpa using h1

theorem foldl_merge_sorted {α : Type} (ts : α → ℕ) :
    ∀ (gs : List (List α)) (acc : List α),
      acc.Sorted (fun u v => ts u ≤ ts v) →
      (∀ g ∈ gs, g.Sorted (fun u v => ts u ≤ ts v)) →
      (gs.foldl (fun r g => mergeSorted (tsCompare ts) r g) acc).Sorted
        (fun u v => ts u ≤ ts v) := by
  intro gs
  induction gs with
  | nil => intro acc hacc _; simpa using hacc
  | cons g gs ih =>
      intro acc hacc hgs
      exact ih (mergeSorted (tsCompare ts) acc g)
        (mergeSorted_sorted ts acc g hacc (hgs g (List.mem_cons_self g gs)))
        (fun g' hg' => hgs g' (List.mem_cons_of_mem g hg'))

theorem foldl_merge_stable {α : Type} (ts : α → ℕ) (t : ℕ) :
    ∀ (gs : List (List α)) (acc : List α),
      acc.Sorted (fun u v => ts u ≤ ts v) →
      (∀ g ∈ gs, g.Sorted (fun u v => ts u ≤ ts v)) →
      (gs.foldl (fun r g => mergeSorted (tsCompare ts) r g) acc).filter
          (fun x => ts x == t) =
        acc.filter (fun x => ts x == t) ++
          (gs.map (fun g => g.filter (fun x => ts x == t))).flatten := by
  intro gs
  induction gs with
  | nil => intro acc _ _; simp
  | cons g gs ih =>
      intro acc hacc hgs
      have hg : g.Sorted (fun u v => ts u ≤ ts v) := hgs g (List.mem_cons_self g gs)
      rw [List.foldl_cons,
        ih (mergeSorted (tsCompare ts) acc g)
          (mergeSorted_sorted ts acc g hacc hg)
          (fun g' hg' => hgs g' (List.mem_cons_of_mem g hg')),
        mergeSorted_stable ts t acc g hacc]
      simp

theorem sublist_foldl_merge_acc {α : Type} (compare : α → α → Int) :
    ∀ (gs : List (List α)) (acc : List α),
      acc.Sublist (gs.foldl (fun r g => mergeSorted compare r g) acc) := by
  intro gs
  induction gs with
  | nil => intro acc; simp
  | cons g gs ih =>
      intro acc
      exact (sublist_mergeSorted_left compare acc g).trans
        (ih (mergeSorted compare acc g))

theorem sublist_foldl_merge {α : Type} (compare : α → α → Int) :
    ∀ (gs : List (List α)) (acc : List α) (g : List α), g ∈ gs →
      g.Sublist (gs.foldl (fun r g => mergeSorted compare r g) acc) := by
  intro gs
  induction gs with
  | nil => intro acc g hg; cases hg
  | cons g' gs ih =>
      intro acc g hg
      rcases List.mem_cons.1 hg with rfl | hmem
      · exact (sublist_mergeSorted_right compare acc g).trans
          (sublist_foldl_merge_acc compare gs (mergeSorted compare acc g))
      · exact ih (mergeSorted compare acc g') g hmem

theorem foldl_mergeStep_filter {α : Type} (compare : α → α → Int) :
    ∀ (gs : List (List α)) (acc : Option (List α)),
      gs.foldl (mergeStep compare) acc =
        (gs.filter (fun g => !g.isEmpty)).foldl (mergeStep compare) acc := by
  intro gs
  induction gs with
  | nil => intro acc; rfl
  | cons g gs ih =>
      intro acc
      by_cases hg : g.isEmpty
      · have hstep : mergeStep compare acc g = acc := by simp [mergeStep, hg]
        simp [List.filter_cons, hg, hstep, ih]
      · simp [List.filter_cons, hg, ih]

theorem mergeAllSorted_skips_empty {α : Type} (compare : α → α → Int)
    (sortedGroups : List (List α)) :
    mergeAllSorted compare sortedGroups =
      mergeAllSorted compare (sortedGroups.filter (fun g => !g.isEmpty)) := by
  rw [mergeAllSorted_eq_foldl, mergeAllSorted_eq_foldl,
    foldl_mergeStep_filter compare sortedGroups none]

/-! ## Claim C1 -/

/-- C1: for every list of candidate groups, each individually sorted ascending
by listener timestamp, the merged resolution output (`mergeAllSorted` folding
pairwise `mergeSorted` left-to-right with the timestamp comparator) is a full
interleaving of all the groups' elements — a permutation of their
concatenation in which every group survives as a subsequence — globally
ascending by timestamp, with length equal to the sum of the group lengths;
ties are broken in favor of the left operand (at every timestamp level the
output lists the groups' elements in fold order); empty groups are skipped and
do not perturb the fold; and if every group is empty the result is empty. -/
theorem c1_merge_resolution_correct {α : Type} (ts : α → ℕ) (groups : List (List α))
    (hs : ∀ g ∈ groups, g.Sorted (fun u v => ts u ≤ ts v)) :
    (mergeAllSorted (tsCompare ts) groups).Sorted (fun u v => ts u ≤ ts v)
    ∧ (mergeAllSorted (tsCompare ts) groups).Perm groups.flatten
    ∧ (mergeAllSorted (tsCompare ts) groups).length = (groups.map List.length).sum
    ∧ (∀ g ∈ groups, g.Sublist (mergeAllSorted (tsCompare ts) groups))
    ∧ (∀ t : ℕ, (mergeAllSorted (tsCompare ts) groups).filter (fun x => ts x == t) =
        (groups.map (fun g => g.filter (fun x => ts x == t))).flatten)
    ∧ mergeAllSorted (tsCompare ts) groups =
        mergeAllSorted (tsCompare ts) (groups.filter (fun g => !g.isEmpty))
    ∧ ((∀ g ∈ groups, g = []) → mergeAllSorted (tsCompare ts) groups = []) := by
  have heq := mergeAllSorted_eq_plain_foldl (tsCompare ts) groups
  have hperm : (mergeAllSorted (tsCompare ts) groups).Perm groups.flatten := by
    rw [heq]
    simpa using foldl_merge_perm (tsCompare ts) groups []
  refine ⟨?_, hperm, ?_, ?_, ?_, ?_, ?_⟩
  · rw [heq]
    exact foldl_merge_sorted ts groups [] (by simp) hs
  · rw [hperm.length_eq, List.length_flatten]
  · intro g hg
    rw [heq]
    exact sublist_foldl_merge (tsCompare ts) groups [] g hg
  · intro t
    rw [heq]
    simpa using foldl_merge_stable ts t groups [] (by simp) hs
  · exact mergeAllSorted_skips_empty (tsCompare ts) groups
  · intro hall
    rw [mergeAllSorted_skips_empty (tsCompare ts) groups,
      List.filter_eq_nil_iff.2 (fun g hg => by simp [hall g hg])]
    rfl

/-- Witness for C1 at a concrete input: three groups (one empty), elements
are `(listenerId, timestamp)` pairs, including a cross-group timestamp tie. -/
theorem c1_merge_resolution_correct_witness :
    (∀ g ∈ [[((1 : ℕ), (1 : ℕ)), (2, 3)], [], [(3, 2), (4, 3)]],
        g.Sorted (fun u v : ℕ × ℕ => u.2 ≤ v.2))
    ∧ ((mergeAllSorted (tsCompare Prod.snd)
          [[((1 : ℕ), (1 : ℕ)), (2, 3)], [], [(3, 2), (4, 3)]]).Sorted
            (fun u v : ℕ × ℕ => u.2 ≤ v.2)
      ∧ (mergeAllSorted (tsCompare Prod.snd)
          [[((1 : ℕ), (1 : ℕ)), (2, 3)], [], [(3, 2), (4, 3)]]).Perm
            [[((1 : ℕ), (1 : ℕ)), (2, 3)], [], [(3, 2), (4, 3)]].flatten
      ∧ (mergeAllSorted (tsCompare Prod.snd)
          [[((1 : ℕ), (1 : ℕ)), (2, 3)], [], [(3, 2), (4, 3)]]).length =
            ([[((1 : ℕ), (1 : ℕ)), (2, 3)], [], [(3, 2), (4, 3)]].map List.length).sum
      ∧ (∀ g ∈ [[((1 : ℕ), (1 : ℕ)), (2, 3)], [], [(3, 2), (4, 3)]],
          g.Sublist (mergeAllSorted (tsCompare Prod.snd)
            [[((1 : ℕ), (1 : ℕ)), (2, 3)], [], [(3, 2), (4, 3)]]))
      ∧ (∀ t : ℕ, (mergeAllSorted (tsCompare Prod.snd)
            [[((1 : ℕ), (1 : ℕ)), (2, 3)], [], [(3, 2), (4, 3)]]).filter
              (fun x => x.2 == t) =
          ([[((1 : ℕ), (1 : ℕ)), (2, 3)], [], [(3, 2), (4, 3)]].map
            (fun g => g.filter (fun x => x.2 == t))).flatten)
      ∧ mergeAllSorted (tsCompare Prod.snd)
            [[((1 : ℕ), (1 : ℕ)), (2, 3)], [], [(3, 2), (4, 3)]] =
          mergeAllSorted (tsCompare Prod.snd)
            ([[((1 : ℕ), (1 : ℕ)), (2, 3)], [], [(3, 2), (4, 3)]].filter
              (fun g => !g.isEmpty))
      ∧ ((∀ g ∈ [[((1 : ℕ), (1 : ℕ)), (2, 3)], [], [(3, 2), (4, 3)]], g = []) →
          mergeAllSorted (tsCompare Prod.snd)
            [[((1 : ℕ), (1 : ℕ)), (2, 3)], [], [(3, 2), (4, 3)]] = [])) :=
  ⟨by decide, c1_merge_resolution_correct Prod.snd
    [[((1 : ℕ), (1 : ℕ)), (2, 3)], [], [(3, 2), (4, 3)]] (by decide)⟩

/-! ## parser.ts : LRUCache

A JavaScript `Map` is an insertion-ordered association list with unique keys;
`Map.prototype.set` on an existing key updates the value in place,
`Map.prototype.delete` removes the key's entry, and iteration
(`keys().next()`) starts at the oldest entry. -/

/-- `Map.prototype.has`. -/
def jsMapHas {K V : Type} [DecidableEq K] (m : List (K × V)) (k : K) : Bool :=
  m.any (fun p => p.1 = k)

/-- `Map.prototype.get` (`undefined` is `none`). -/
def jsMapGet {K V : Type} [DecidableEq K] (m : List (K × V)) (k : K) : Option V :=
  (m.find? (fun p => p.1 = k)).map (fun p => p.2)

/-- `Map.prototype.delete` (keys are unique, so removing every pair with the
key removes exactly the key's entry). -/
def jsMapDelete {K V : Type} [DecidableEq K] (m : List (K × V)) (k : K) :
    List (K × V) :=
  m.filter (fun p => ¬p.1 = k)

/-- `Map.prototype.set`: update in place when the key is present, otherwise
append at the most-recent end. -/
def jsMapSet {K V : Type} [DecidableEq K] (m : List (K × V)) (k : K) (v : V) :
    List (K × V) :=
  if jsMapHas m k then m.map (fun p => if p.1 = k then (k, v) else p)
  else m ++ [(k, v)]

/-- `LRUCache` from `parser.ts`: a capacity-bounded map whose underlying JS
`Map` is kept in least-recently-used-first order. -/
structure LRUCache (K V : Type) where
  capacity : ℕ
  cache : List (K × V) := []
  deriving Repr

namespace LRUCache

/-- The constructor throws when `capacity <= 0`
(`"LRU capacity must be greater than 0"`). -/
def create (K V : Type) (capacity : ℕ) : Except JsError (LRUCache K V) :=
  if capacity ≤ 0 then .error .typeError else .ok { capacity := capacity }

/-- `LRUCache.has`. -/
def has {K V : Type} [DecidableEq K] (c : LRUCache K V) (k : K) : Bool :=
  jsMapHas c.cache k

/-- `LRUCache.size`. -/
def size {K V : Type} (c : LRUCache K V) : ℕ := c.cache.length

/-- `LRUCache.isFull`: `size >= capacity`. -/
def isFull {K V : Type} (c : LRUCache K V) : Bool := c.capacity ≤ c.cache.length

/-- `LRUCache.set`: delete the key if present, else evict the first
(least-recently-used) entry when full, then insert at the most-recent end. -/
def set {K V : Type} [DecidableEq K] (c : LRUCache K V) (k : K) (v : V) :
    LRUCache K V :=
  let m :=
    if c.has k then jsMapDelete c.cache k
    else if c.isFull then
      match c.cache.head? with
      | some p => jsMapDelete c.cache p.1
      | none => c.cache
    else c.cache
  { c with cache := jsMapSet m k v }

/-- `LRUCache.get`: on a hit (`value !== undefined`) the entry is re-inserted
at the most-recent end; returns the value alongside the updated cache. -/
def get {K V : Type} [DecidableEq K] (c : LRUCache K V) (k : K) :
    Option V × LRUCache K V :=
  match jsMapGet c.cache k with
  | some v => (some v, { c with cache := jsMapSet (jsMapDelete c.cache k) k v })
  | none => (none, c)

/-- `LRUCache.delete`. -/
def delete {K V : Type} [DecidableEq K] (c : LRUCache K V) (k : K) : LRUCache K V :=
  { c with cache := jsMapDelete c.cache k }

/-- `LRUCache.clear`. -/
def clear {K V : Type} (c : LRUCache K V) : LRUCache K V := { c with cache := [] }

/-- The keys of the cache, least-recently-used first. -/
def keys {K V : Type} (c : LRUCache K V) : List K := c.cache.map Prod.fst

end LRUCache

/-! ### JS map / LRU lemmas -/

theorem jsMapHas_eq_false_iff {K V : Type} [DecidableEq K]
    (m : List (K × V)) (k : K) :
    jsMapHas m k = false ↔ ∀ p ∈ m, p.1 ≠ k := by
  simp [jsMapHas]

theorem jsMapHas_delete_self {K V : Type} [DecidableEq K]
    (m : List (K × V)) (k : K) :
    jsMapHas (jsMapDelete m k) k = false := by
  rw [jsMapHas_eq_false_iff]
  intro p hp
  have := List.of_mem_filter hp
  simpa using this

theorem jsMapHas_delete_of_eq_false {K V : Type} [DecidableEq K]
    {m : List (K × V)} {k : K} (h : jsMapHas m k = false) (k' : K) :
    jsMapHas (jsMapDelete m k') k = false := by
  rw [jsMapHas_eq_false_iff] at h ⊢
  exact fun p hp => h p (List.mem_of_mem_filter hp)

theorem jsMapSet_of_not_has {K V : Type} [DecidableEq K]
    {m : List (K × V)} {k : K} (h : jsMapHas m k = false) (v : V) :
    jsMapSet m k v = m ++ [(k, v)] := by
  simp [jsMapSet, h]

theorem jsMapGet_append_single_self {K V : Type} [DecidableEq K]
    {m : List (K × V)} {k : K} (h : jsMapHas m k = false) (v : V) :
    jsMapGet (m ++ [(k, v)]) k = some v := by
  rw [jsMapHas_eq_false_iff] at h
  induction m with
  | nil => simp [jsMapGet]
  | cons p m ih =>
      have hp : ¬p.1 = k := h p (List.mem_cons_self p m)
      have ih' := ih (fun q hq => h q (List.mem_cons_of_mem p hq))
      simpa [jsMapGet, List.find?_cons, hp] using ih'

theorem keys_jsMapDelete {K V : Type} [DecidableEq K]
    (m : List (K × V)) (k : K) :
    (jsMapDelete m k).map Prod.fst = (m.map Prod.fst).filter (fun x => ¬x = k) := by
  induction m with
  | nil => rfl
  | cons p m ih =>
      by_cases hp : p.1 = k
      · simp [jsMapDelete, List.filter_cons, hp] at ih ⊢
        exact ih
      · simp [jsMapDelete, List.filter_cons, hp] at ih ⊢
        exact ih

theorem nodup_filter_not_eq {K : Type} [DecidableEq K] :
    ∀ (l : List K) (k : K), l.Nodup → k ∉ l → l.filter (fun x => ¬x = k) = l := by
  intro l k _ hk
  rw [List.filter_eq_self]
  intro x hx
  simp only [decide_eq_true_eq]
  intro hxk
  exact hk (hxk ▸ hx)

theorem erase_eq_filter_not {K : Type} [DecidableEq K] :
    ∀ (l : List K) (k : K), l.Nodup → l.erase k = l.filter (fun x => ¬x = k) := by
  intro l
  induction l with
  | nil => intro k _; rfl
  | cons a l ih =>
      intro k hnd
      rw [List.nodup_cons] at hnd
      by_cases ha : a = k
      · subst ha
        rw [List.erase_cons_head, List.filter_cons_of_neg (by simp)]
        exact (nodup_filter_not_eq l a hnd.2 hnd.1).symm
      · rw [List.erase_cons_tail (by simp [ha]), List.filter_cons_of_pos (by simp [ha]),
          ih k hnd.2]

theorem length_filter_lt_of_any {K : Type} (p : K → Bool) :
    ∀ l : List K, l.any p = true → (l.filter (fun x => !p x)).length < l.length := by
  intro l
  induction l with
  | nil => intro h; cases h
  | cons a l ih =>
      intro h
      by_cases ha : p a
      · rw [List.filter_cons_of_neg (by simp [ha])]
        exact Nat.lt_succ_of_le (List.length_filter_le _ l)
      · rw [List.filter_cons_of_pos (by simp [ha])]
        have : l.any p = true := by
          rcases List.any_eq_true.1 h with ⟨x, hx, hpx⟩
          rcases List.mem_cons.1 hx with rfl | hxl
          · exact absurd hpx ha
          · exact List.any_eq_true.2 ⟨x, hxl, hpx⟩
        simpa using Nat.succ_lt_succ (ih this)

theorem length_jsMapDelete_lt {K V : Type} [DecidableEq K]
    {m : List (K × V)} {k : K} (h : jsMapHas m k = true) :
    (jsMapDelete m k).length < m.length := by
  have := length_filter_lt_of_any (fun p : K × V => p.1 = k) m h
  simpa [jsMapDelete] using this


theorem lru_keys_def {K V : Type} (c : LRUCache K V) :
    c.keys = c.cache.map Prod.fst := rfl

theorem lru_has_iff_get_isSome {K V : Type} [DecidableEq K]
    (m : List (K × V)) (k : K) :
    jsMapHas m k = true ↔ (jsMapGet m k).isSome := by
  unfold jsMapHas jsMapGet
  cases hf : List.find? (fun p => decide (p.1 = k)) m with
  | none =>
      rw [List.find?_eq_none] at hf
      refine iff_of_false ?_ (by simp)
      intro hany
      rcases List.any_eq_true.1 hany with ⟨p, hp, hpk⟩
      exact absurd hpk (by simpa using hf p hp)
  | some p =>
      have hmem := List.mem_of_find?_eq_some hf
      have hpk : p.1 = k := by simpa using List.find?_some hf
      refine iff_of_true ?_ (by simp)
      exact List.any_eq_true.2 ⟨p, hmem, by simpa using hpk⟩

theorem lru_get_promote_keys {K V : Type} [DecidableEq K]
    (c : LRUCache K V) (k : K) (hnd : c.keys.Nodup) (h : c.has k = true) :
    ((c.get k).2).keys = c.keys.erase k ++ [k] := by
  rw [lru_keys_def] at hnd
  obtain ⟨v, hv⟩ := Option.isSome_iff_exists.1 ((lru_has_iff_get_isSome c.cache k).1 h)
  have hcache : ((c.get k).2).cache = jsMapDelete c.cache k ++ [(k, v)] := by
    simp [LRUCache.get, hv, jsMapSet_of_not_has (jsMapHas_delete_self c.cache k)]
  rw [lru_keys_def, lru_keys_def, hcache, List.map_append, keys_jsMapDelete,
    ← erase_eq_filter_not (c.cache.map Prod.fst) k hnd]
  rfl

theorem lru_set_present {K V : Type} [DecidableEq K]
    (c : LRUCache K V) (k : K) (v : V) (hnd : c.keys.Nodup) (h : c.has k = true) :
    (c.set k v).keys = c.keys.erase k ++ [k]
    ∧ jsMapGet (c.set k v).cache k = some v
    ∧ (c.set k v).size = c.size := by
  rw [lru_keys_def] at hnd
  have hdel : jsMapHas (jsMapDelete c.cache k) k = false := jsMapHas_delete_self c.cache k
  have hcache : (c.set k v).cache = jsMapDelete c.cache k ++ [(k, v)] := by
    simp [LRUCache.set, h, jsMapSet_of_not_has hdel]
  refine ⟨?_, ?_, ?_⟩
  · rw [lru_keys_def, lru_keys_def, hcache, List.map_append, keys_jsMapDelete,
      ← erase_eq_filter_not (c.cache.map Prod.fst) k hnd]
    rfl
  · rw [hcache]
    exact jsMapGet_append_single_self hdel v
  · have hmem : k ∈ c.cache.map Prod.fst := by
      rcases List.any_eq_true.1 h with ⟨p, hp, hpk⟩
      exact List.mem_map.2 ⟨p, hp, by simpa using hpk⟩
    have h1 : (jsMapDelete c.cache k).map Prod.fst = (c.cache.map Prod.fst).erase k := by
      rw [keys_jsMapDelete, ← erase_eq_filter_not (c.cache.map Prod.fst) k hnd]
    have h2 := congrArg List.length h1
    rw [List.length_map, List.length_erase_of_mem hmem, List.length_map] at h2
    have hpos : 0 < c.cache.length := by
      rcases List.any_eq_true.1 h with ⟨p, hp, _⟩
      exact List.length_pos.2 (fun hnil => by simp [hnil] at hp)
    simp only [LRUCache.size, hcache, List.length_append, h2, List.length_singleton]
    omega

theorem lru_set_evict_keys {K V : Type} [DecidableEq K]
    (c : LRUCache K V) (k : K) (v : V) (hnd : c.keys.Nodup) (h : c.has k = false)
    (hfull : c.capacity ≤ c.size) (hpos : 0 < c.capacity) :
    (c.set k v).keys = c.keys.tail ++ [k] := by
  rw [lru_keys_def] at hnd
  have hlen : 0 < c.cache.length := lt_of_lt_of_le hpos hfull
  obtain ⟨p, rest, hrest⟩ : ∃ p rest, c.cache = p :: rest := by
    cases hc : c.cache with
    | nil => rw [hc] at hlen; cases hlen
    | cons p rest => exact ⟨p, rest, rfl⟩
  have hhead : c.cache.head? = some p := by rw [hrest]; rfl
  have hfull' : c.isFull = true := by
    simpa [LRUCache.isFull] using hfull
  have hdel : jsMapDelete c.cache p.1 = rest := by
    rw [hrest]
    show List.filter _ (p :: rest) = rest
    rw [List.filter_cons_of_neg (by simp)]
    rw [hrest] at hnd
    simp only [List.map_cons, List.nodup_cons] at hnd
    rw [List.filter_eq_self]
    intro q hq
    simp only [decide_eq_true_eq]
    intro hqp
    exact hnd.1 (hqp ▸ List.mem_map_of_mem Prod.fst hq)
  have hhasm : jsMapHas rest k = false := by
    have hthis : jsMapHas c.cache k = false := h
    rw [hrest] at hthis
    rw [jsMapHas_eq_false_iff] at hthis ⊢
    exact fun q hq => hthis q (List.mem_cons_of_mem p hq)
  have hcache : (c.set k v).cache = rest ++ [(k, v)] := by
    simp [LRUCache.set, h, hfull', hhead, hdel, jsMapSet_of_not_has hhasm]
  rw [lru_keys_def, lru_keys_def, hcache, hrest]
  simp

theorem lru_set_cache_decomp {K V : Type} [DecidableEq K]
    (c : LRUCache K V) (k : K) (v : V) :
    ∃ m : List (K × V), (c.set k v).cache = m ++ [(k, v)]
      ∧ m.Sublist c.cache ∧ jsMapHas m k = false := by
  by_cases h : c.has k
  · refine ⟨jsMapDelete c.cache k, ?_, List.filter_sublist _,
      jsMapHas_delete_self c.cache k⟩
    simp [LRUCache.set, h, jsMapSet_of_not_has (jsMapHas_delete_self c.cache k)]
  · have h' : jsMapHas c.cache k = false := by
      simpa [LRUCache.has] using h
    by_cases hf : c.isFull
    · cases hh : c.cache.head? with
      | none =>
          exact ⟨c.cache, by simp [LRUCache.set, h, hf, hh, jsMapSet_of_not_has h'],
            List.Sublist.refl _, h'⟩
      | some p =>
          refine ⟨jsMapDelete c.cache p.1, ?_, List.filter_sublist _,
            jsMapHas_delete_of_eq_false h' p.1⟩
          simp [LRUCache.set, h, hf, hh,
            jsMapSet_of_not_has (jsMapHas_delete_of_eq_false h' p.1)]
    · exact ⟨c.cache, by simp [LRUCache.set, h, hf, jsMapSet_of_not_has h'],
        List.Sublist.refl _, h'⟩

theorem lru_set_nodup {K V : Type} [DecidableEq K]
    {c : LRUCache K V} {k : K} {v : V} (hnd : c.keys.Nodup) :
    (c.set k v).keys.Nodup := by
  obtain ⟨m, hc, hsub, hhas⟩ := lru_set_cache_decomp c k v
  rw [lru_keys_def, hc, List.map_append]
  refine List.Nodup.append ?_ (by simp) ?_
  · exact ((hsub.map Prod.fst).nodup hnd)
  · rw [jsMapHas_eq_false_iff] at hhas
    intro a ha hb
    simp only [List.map_cons, List.map_nil, List.mem_singleton] at hb
    subst hb
    rcases List.mem_map.1 ha with ⟨p, hp, hpk⟩
    exact hhas p hp hpk

theorem lru_set_size_le {K V : Type} [DecidableEq K]
    {c : LRUCache K V} (k : K) (v : V) (hle : c.size ≤ c.capacity)
    (hpos : 0 < c.capacity) :
    (c.set k v).size ≤ c.capacity := by
  by_cases h : c.has k
  · have hcache : (c.set k v).cache = jsMapDelete c.cache k ++ [(k, v)] := by
      simp [LRUCache.set, h, jsMapSet_of_not_has (jsMapHas_delete_self c.cache k)]
    have hlt := length_jsMapDelete_lt (m := c.cache) (k := k) h
    simp only [LRUCache.size, hcache, List.length_append, List.length_singleton] at *
    omega
  · have h' : jsMapHas c.cache k = false := by
      simpa [LRUCache.has] using h
    by_cases hf : c.isFull
    · have hful : c.capacity ≤ c.cache.length := by
        simpa [LRUCache.isFull] using hf
      have hlen : 0 < c.cache.length := lt_of_lt_of_le hpos hful
      obtain ⟨p, rest, hrest⟩ : ∃ p rest, c.cache = p :: rest := by
        cases hc : c.cache with
        | nil => rw [hc] at hlen; cases hlen
        | cons p rest => exact ⟨p, rest, rfl⟩
      have hhead : c.cache.head? = some p := by rw [hrest]; rfl
      have hcache : (c.set k v).cache = jsMapDelete c.cache p.1 ++ [(k, v)] := by
        simp [LRUCache.set, h, hf, hhead,
          jsMapSet_of_not_has (jsMapHas_delete_of_eq_false h' p.1)]
      have hmemp : jsMapHas c.cache p.1 = true := by
        rw [hrest]
        exact List.any_eq_true.2 ⟨p, List.mem_cons_self p rest, by simp⟩
      have hlt := length_jsMapDelete_lt hmemp
      simp only [LRUCache.size, hcache, List.length_append, List.length_singleton] at *
      omega
    · have hnotful : c.cache.length < c.capacity := by
        simpa [LRUCache.isFull] using hf
      have hcache : (c.set k v).cache = c.cache ++ [(k, v)] := by
        simp [LRUCache.set, h, hf, jsMapSet_of_not_has h']
      simp only [LRUCache.size, hcache, List.length_append, List.length_singleton]
      omega

theorem lru_get_nodup {K V : Type} [DecidableEq K]
    {c : LRUCache K V} (k : K) (hnd : c.keys.Nodup) :
    ((c.get k).2).keys.Nodup := by
  cases hv : jsMapGet c.cache k with
  | none => simpa [LRUCache.get, hv] using hnd
  | some v =>
      have hcache : ((c.get k).2).cache = jsMapDelete c.cache k ++ [(k, v)] := by
        simp [LRUCache.get, hv, jsMapSet_of_not_has (jsMapHas_delete_self c.cache k)]
      rw [lru_keys_def, hcache, List.map_append]
      refine List.Nodup.append ?_ (by simp) ?_
      · exact (((List.filter_sublist c.cache).map Prod.fst).nodup hnd)
      · have hhas := jsMapHas_delete_self c.cache k
        rw [jsMapHas_eq_false_iff] at hhas
        intro a ha hb
        simp only [List.map_cons, List.map_nil, List.mem_singleton] at hb
        subst hb
        rcases List.mem_map.1 ha with ⟨p, hp, hpk⟩
        exact hhas p hp hpk

theorem lru_get_size_le {K V : Type} [DecidableEq K]
    {c : LRUCache K V} (k : K) (hle : c.size ≤ c.capacity) :
    ((c.get k).2).size ≤ c.capacity := by
  cases hv : jsMapGet c.cache k with
  | none => simpa [LRUCache.get, hv] using hle
  | some v =>
      have hcache : ((c.get k).2).cache = jsMapDelete c.cache k ++ [(k, v)] := by
        simp [LRUCache.get, hv, jsMapSet_of_not_has (jsMapHas_delete_self c.cache k)]
      have hhas : jsMapHas c.cache k = true :=
        (lru_has_iff_get_isSome c.cache k).2 (by simp [hv])
      have hlt := length_jsMapDelete_lt hhas
      simp only [LRUCache.size, hcache, List.length_append, List.length_singleton] at *
      omega

/-! ### The LRU cache as a state machine -/

/-- One public operation on the LRU cache. -/
inductive LRUOp (K V : Type)
  | set (k : K) (v : V)
  | get (k : K)
  | delete (k : K)
  | clear

/-- Apply one operation (the value returned by `get` is discarded). -/
def applyOp {K V : Type} [DecidableEq K] (c : LRUCache K V) : LRUOp K V → LRUCache K V
  | .set k v => c.set k v
  | .get k => (c.get k).2
  | .delete k => c.delete k
  | .clear => c.clear

/-- Run a sequence of operations from a starting cache. -/
def runOps {K V : Type} [DecidableEq K] (c : LRUCache K V) (ops : List (LRUOp K V)) :
    LRUCache K V :=
  ops.foldl applyOp c

theorem lru_applyOp_capacity {K V : Type} [DecidableEq K]
    (c : LRUCache K V) (op : LRUOp K V) : (applyOp c op).capacity = c.capacity := by
  cases op with
  | set k v => rfl
  | get k => cases hv : jsMapGet c.cache k <;> simp [applyOp, LRUCache.get, hv]
  | delete k => rfl
  | clear => rfl

theorem lru_applyOp_inv {K V : Type} [DecidableEq K]
    (c : LRUCache K V) (op : LRUOp K V) (hle : c.size ≤ c.capacity)
    (hpos : 0 < c.capacity) (hnd : c.keys.Nodup) :
    (applyOp c op).capacity = c.capacity
    ∧ (applyOp c op).size ≤ (applyOp c op).capacity
    ∧ (applyOp c op).keys.Nodup := by
  refine ⟨lru_applyOp_capacity c op, ?_, ?_⟩
  · rw [lru_applyOp_capacity c op]
    cases op with
    | set k v => exact lru_set_size_le k v hle hpos
    | get k => exact lru_get_size_le k hle
    | delete k =>
        exact le_trans (List.length_filter_le _ _) hle
    | clear => simp [applyOp, LRUCache.clear, LRUCache.size]
  · cases op with
    | set k v => exact lru_set_nodup hnd
    | get k => exact lru_get_nodup k hnd
    | delete k =>
        rw [lru_keys_def]
        exact ((List.filter_sublist c.cache).map Prod.fst).nodup hnd
    | clear => simp [applyOp, LRUCache.clear, lru_keys_def]

theorem lru_runOps_inv {K V : Type} [DecidableEq K] (n : ℕ) (hpos : 0 < n) :
    ∀ (ops : List (LRUOp K V)) (c : LRUCache K V),
      c.capacity = n → c.size ≤ n → c.keys.Nodup →
      (runOps c ops).capacity = n ∧ (runOps c ops).size ≤ n ∧ (runOps c ops).keys.Nodup := by
  intro ops
  induction ops with
  | nil => intro c h1 h2 h3; exact ⟨h1, h2, h3⟩
  | cons op ops ih =>
      intro c h1 h2 h3
      have hstep := lru_applyOp_inv c op (h1 ▸ h2) (h1 ▸ hpos) h3
      exact ih (applyOp c op) (hstep.1.trans h1)
        (hstep.2.1.trans (Nat.le_of_eq (hstep.1.trans h1))) hstep.2.2

/-! ## Claim C6 -/

/-- C6: the LRU cache evicts by access order, not insertion order: `get` on a
present key promotes it to the most-recently-used position (the keys become
the old keys with `k` removed, followed by `k`), a `set` of a new key when
the cache is full evicts the least-recently-used entry (the head of the
access-ordered key list), and concretely, with capacity 2, inserting keys
`0` then `1`, accessing `0` via `get`, then inserting `2` leaves `0` and `2`
present and `1` absent. -/
theorem c6_lru_evicts_by_access_order :
    (∀ (K V : Type) [DecidableEq K] (c : LRUCache K V) (k : K),
        c.keys.Nodup → c.has k = true →
          ((c.get k).2).keys = c.keys.erase k ++ [k])
    ∧ (∀ (K V : Type) [DecidableEq K] (c : LRUCache K V) (k : K) (v : V),
        c.keys.Nodup → c.has k = false → c.capacity ≤ c.size → 0 < c.capacity →
          (c.set k v).keys = c.keys.tail ++ [k])
    ∧ (((((((LRUCache.mk 2 ([] : List (ℕ × ℕ))).set 0 10).set 1 11).get 0).2).set 2 12).has 0 = true
      ∧ ((((((LRUCache.mk 2 ([] : List (ℕ × ℕ))).set 0 10).set 1 11).get 0).2).set 2 12).has 2 = true
      ∧ ((((((LRUCache.mk 2 ([] : List (ℕ × ℕ))).set 0 10).set 1 11).get 0).2).set 2 12).has 1 = false) := by
  refine ⟨?_, ?_, by decide, by decide, by decide⟩
  · intro K V _ c k hnd h
    exact lru_get_promote_keys c k hnd h
  · intro K V _ c k v hnd h hfull hpos
    exact lru_set_evict_keys c k v hnd h hfull hpos

/-- Witness for C6: the promotion clause applied to a concrete one-entry
cache. -/
theorem c6_lru_evicts_by_access_order_witness :
    ((LRUCache.mk 2 [((5 : ℕ), (7 : ℕ))]).keys.Nodup
      ∧ (LRUCache.mk 2 [((5 : ℕ), (7 : ℕ))]).has 5 = true)
    ∧ (((LRUCache.mk 2 [((5 : ℕ), (7 : ℕ))]).get 5).2).keys =
        (LRUCache.mk 2 [((5 : ℕ), (7 : ℕ))]).keys.erase 5 ++ [5] :=
  ⟨⟨by decide, by decide⟩,
    c6_lru_evicts_by_access_order.1 ℕ ℕ (LRUCache.mk 2 [(5, 7)]) 5
      (by decide) (by decide)⟩

/-! ## Claim C10 -/

/-- C10 (implicit): the LRU cache never exceeds its capacity — after any
sequence of `set`, `get`, `delete`, and `clear` operations on a cache
constructed with capacity `n > 0`, the number of entries is at most `n`;
moreover, `set` on a key already present replaces its value and promotes the
key to most-recently-used without evicting any other entry (the key list
keeps exactly the old keys, minus `k`, plus `k` at the most-recent end, and
the entry count is unchanged). -/
theorem c10_lru_never_exceeds_capacity (K V : Type) [DecidableEq K] (n : ℕ)
    (hn : 0 < n) (ops : List (LRUOp K V)) :
    (runOps (LRUCache.mk n []) ops).size ≤ n
    ∧ (∀ k v, (runOps (LRUCache.mk n []) ops).has k = true →
        ((runOps (LRUCache.mk n []) ops).set k v).keys =
            (runOps (LRUCache.mk n []) ops).keys.erase k ++ [k]
          ∧ jsMapGet ((runOps (LRUCache.mk n []) ops).set k v).cache k = some v
          ∧ ((runOps (LRUCache.mk n []) ops).set k v).size =
              (runOps (LRUCache.mk n []) ops).size) := by
  have hinv := lru_runOps_inv n hn ops (LRUCache.mk n []) rfl (by simp [LRUCache.size])
    (by simp [lru_keys_def])
  refine ⟨hinv.2.1, ?_⟩
  intro k v hk
  exact lru_set_present (runOps (LRUCache.mk n []) ops) k v hinv.2.2 hk

/-- Witness for C10 at a concrete operation sequence on a capacity-1 cache. -/
theorem c10_lru_never_exceeds_capacity_witness :
    0 < 1
    ∧ ((runOps (LRUCache.mk 1 [])
          [LRUOp.set (0 : ℕ) (1 : ℕ), LRUOp.set 2 3, LRUOp.get 0,
            LRUOp.delete 2, LRUOp.clear, LRUOp.set 4 5]).size ≤ 1
      ∧ (∀ k v, (runOps (LRUCache.mk 1 [])
          [LRUOp.set (0 : ℕ) (1 : ℕ), LRUOp.set 2 3, LRUOp.get 0,
            LRUOp.delete 2, LRUOp.clear, LRUOp.set 4 5]).has k = true →
          ((runOps (LRUCache.mk 1 [])
            [LRUOp.set (0 : ℕ) (1 : ℕ), LRUOp.set 2 3, LRUOp.get 0,
              LRUOp.delete 2, LRUOp.clear, LRUOp.set 4 5]).set k v).keys =
              (runOps (LRUCache.mk 1 [])
                [LRUOp.set (0 : ℕ) (1 : ℕ), LRUOp.set 2 3, LRUOp.get 0,
                  LRUOp.delete 2, LRUOp.clear, LRUOp.set 4 5]).keys.erase k ++ [k]
            ∧ jsMapGet ((runOps (LRUCache.mk 1 [])
                [LRUOp.set (0 : ℕ) (1 : ℕ), LRUOp.set 2 3, LRUOp.get 0,
                  LRUOp.delete 2, LRUOp.clear, LRUOp.set 4 5]).set k v).cache k = some v
            ∧ ((runOps (LRUCache.mk 1 [])
                [LRUOp.set (0 : ℕ) (1 : ℕ), LRUOp.set 2 3, LRUOp.get 0,
                  LRUOp.delete 2, LRUOp.clear, LRUOp.set 4 5]).set k v).size =
                (runOps (LRUCache.mk 1 [])
                  [LRUOp.set (0 : ℕ) (1 : ℕ), LRUOp.set 2 3, LRUOp.get 0,
                    LRUOp.delete 2, LRUOp.clear, LRUOp.set 4 5]).size)) :=
  ⟨Nat.one_pos,
    c10_lru_never_exceeds_capacity ℕ ℕ 1 Nat.one_pos
      [LRUOp.set 0 1, LRUOp.set 2 3, LRUOp.get 0, LRUOp.delete 2, LRUOp.clear,
        LRUOp.set 4 5]⟩

/-! ## JS string trimming -/

/-- The code points removed by `String.prototype.trim`
(ECMAScript WhiteSpace and LineTerminator). -/
def jsWhitespace (c : Char) : Bool :=
  c.toNat ∈ [9, 10, 11, 12, 13, 32, 160, 0x1680, 0x2000, 0x2001, 0x2002, 0x2003,
    0x2004, 0x2005, 0x2006, 0x2007, 0x2008, 0x2009, 0x200a, 0x2028, 0x2029,
    0x202f, 0x205f, 0x3000, 0xfeff]

/-- `String.prototype.trim`: strip leading and trailing whitespace. -/
def jsTrim (s : List Char) : List Char :=
  ((s.dropWhile jsWhitespace).reverse.dropWhile jsWhitespace).reverse

theorem jsTrim_eq_nil_of_all_ws {s : List Char}
    (h : ∀ c ∈ s, jsWhitespace c = true) : jsTrim s = [] := by
  unfold jsTrim
  rw [List.dropWhile_eq_nil_iff.2 (fun c hc => h c hc)]
  rfl

/-! ## parser.ts : FinalSelectorExtractor -/

/-- `FinalSelectorDescriptor` from `parser.ts`: the flat descriptor built for
one final (deepest-nested) rule. Absent optional fields are `none`. -/
structure FinalSelectorDescriptor where
  raw : List Char
  tag : Option (List Char) := none
  id : Option (List Char) := none
  classes : Option (List (List Char)) := none
  attrs : Option (List (List Char)) := none
  pseudoClasses : Option (List (List Char)) := none
  pseudoElements : Option (List (List Char)) := none
  deriving DecidableEq, Repr

/-- `FinalSelectorExtractor`'s state: its private LRU cache
(`new LRUCache<string, FinalSelectorDescriptor[]>(100)`). -/
structure FinalSelectorExtractor where
  cache : LRUCache (List Char) (List FinalSelectorDescriptor)
  deriving Repr

/-- A freshly constructed `FinalSelectorExtractor`. -/
def extractorInit : FinalSelectorExtractor := ⟨LRUCache.mk 100 []⟩

/-- `FinalSelectorExtractor.extract` from `parser.ts`, parameterized by the
injected `QueryParser` (costs are modelled as rationals). The trailing `Bool`
instruments whether `this._parser.parse` was invoked during the call (the
"parser call counter" of the spec's testable property); the source returns
only the descriptors. Behaviour: trim; empty input short-circuits; a cache
hit returns the cached descriptors (refreshing recency via `get`); otherwise
parse, propagate errors, and cache the result only when
`result.matchCost >= 4`. -/
def FinalSelectorExtractor.extract {ε : Type}
    (parser : List Char → Except ε (List FinalSelectorDescriptor × ℚ))
    (ex : FinalSelectorExtractor) (query : List Char) :
    Except ε (List FinalSelectorDescriptor × FinalSelectorExtractor × Bool) :=
  let queryTrimmed := jsTrim query
  if queryTrimmed.length = 0 then .ok ([], ex, false)
  else if ex.cache.has queryTrimmed then
    let r := ex.cache.get queryTrimmed
    .ok (r.1.getD [], ⟨r.2⟩, false)
  else
    match parser queryTrimmed with
    | .error e => .error e
    | .ok result =>
        if 4 ≤ result.2 then
          .ok (result.1, ⟨ex.cache.set queryTrimmed result.1⟩, true)
        else .ok (result.1, ex, true)

theorem lru_has_set_self {K V : Type} [DecidableEq K]
    (c : LRUCache K V) (k : K) (v : V) : (c.set k v).has k = true := by
  obtain ⟨m, hc, _, _⟩ := lru_set_cache_decomp c k v
  unfold LRUCache.has jsMapHas
  rw [hc]
  exact List.any_eq_true.2 ⟨(k, v), List.mem_append_right m (List.mem_singleton_self _),
    by simp⟩

theorem lru_get_of_set_self {K V : Type} [DecidableEq K]
    (c : LRUCache K V) (k : K) (v : V) : ((c.set k v).get k).1 = some v := by
  obtain ⟨m, hc, _, hm⟩ := lru_set_cache_decomp c k v
  unfold LRUCache.get
  rw [hc, jsMapGet_append_single_self hm v]

/-! ## Claim C5 -/

/-- C5: after a successful, uncached `extract`, the parse result is stored in
the cache iff its computed cost meets the engine-wide admission threshold
(`4`): below the threshold a second `extract` of the same string misses the
cache and invokes the parser again; at or above it, the second `extract`
returns the cached descriptors without reparsing. -/
theorem c5_cache_admission_threshold {ε : Type}
    (parser : List Char → Except ε (List FinalSelectorDescriptor × ℚ))
    (ex : FinalSelectorExtractor) (q : List Char)
    (ds : List FinalSelectorDescriptor) (cost : ℚ)
    (hne : ¬(jsTrim q).length = 0)
    (hmiss : ex.cache.has (jsTrim q) = false)
    (hp : parser (jsTrim q) = .ok (ds, cost)) :
    ∃ ex1 : FinalSelectorExtractor,
      FinalSelectorExtractor.extract parser ex q = .ok (ds, ex1, true)
      ∧ (ex1.cache.has (jsTrim q) = true ↔ 4 ≤ cost)
      ∧ (cost < 4 →
          FinalSelectorExtractor.extract parser ex1 q = .ok (ds, ex1, true))
      ∧ (4 ≤ cost → ∃ ex2 : FinalSelectorExtractor,
          FinalSelectorExtractor.extract parser ex1 q = .ok (ds, ex2, false)) := by
  by_cases hc : (4 : ℚ) ≤ cost
  · refine ⟨⟨ex.cache.set (jsTrim q) ds⟩, ?_, ?_, ?_, ?_⟩
    · simp [FinalSelectorExtractor.extract, hne, hmiss, hp, hc]
    · exact iff_of_true (lru_has_set_self ex.cache (jsTrim q) ds) hc
    · intro h4
      exact absurd hc (not_le.2 h4)
    · intro _
      refine ⟨⟨((ex.cache.set (jsTrim q) ds).get (jsTrim q)).2⟩, ?_⟩
      have hhit := lru_has_set_self ex.cache (jsTrim q) ds
      have hval := lru_get_of_set_self ex.cache (jsTrim q) ds
      simp [FinalSelectorExtractor.extract, hne, hhit, hval]
  · refine ⟨ex, ?_, ?_, ?_, ?_⟩
    · simp [FinalSelectorExtractor.extract, hne, hmiss, hp, hc]
    · exact iff_of_false (by simp [hmiss]) hc
    · intro _
      simp [FinalSelectorExtractor.extract, hne, hmiss, hp, hc]
    · intro h4
      exact absurd h4 hc

/-- Witness for C5: a constant parser of cost 5 on the one-character query
`"p"` against a fresh extractor. -/
theorem c5_cache_admission_threshold_witness :
    (¬(jsTrim (str "p")).length = 0
      ∧ extractorInit.cache.has (jsTrim (str "p")) = false
      ∧ (fun s => (Except.ok ([{ raw := s }], (5 : ℚ)) :
          Except Unit (List FinalSelectorDescriptor × ℚ))) (jsTrim (str "p")) =
            Except.ok ([{ raw := jsTrim (str "p") }], 5))
    ∧ (∃ ex1 : FinalSelectorExtractor,
        FinalSelectorExtractor.extract
            (fun s => (Except.ok ([{ raw := s }], (5 : ℚ)) :
              Except Unit (List FinalSelectorDescriptor × ℚ)))
            extractorInit (str "p") =
          .ok ([{ raw := jsTrim (str "p") }], ex1, true)
        ∧ (ex1.cache.has (jsTrim (str "p")) = true ↔ 4 ≤ (5 : ℚ))
        ∧ ((5 : ℚ) < 4 →
            FinalSelectorExtractor.extract
              (fun s => (Except.ok ([{ raw := s }], (5 : ℚ)) :
                Except Unit (List FinalSelectorDescriptor × ℚ)))
              ex1 (str "p") = .ok ([{ raw := jsTrim (str "p") }], ex1, true))
        ∧ ((4 : ℚ) ≤ 5 → ∃ ex2 : FinalSelectorExtractor,
            FinalSelectorExtractor.extract
              (fun s => (Except.ok ([{ raw := s }], (5 : ℚ)) :
                Except Unit (List FinalSelectorDescriptor × ℚ)))
              ex1 (str "p") = .ok ([{ raw := jsTrim (str "p") }], ex2, false))) :=
  ⟨⟨by decide, by decide, rfl⟩,
    c5_cache_admission_threshold
      (fun s => (Except.ok ([{ raw := s }], (5 : ℚ)) :
        Except Unit (List FinalSelectorDescriptor × ℚ)))
      extractorInit (str "p") [{ raw := jsTrim (str "p") }] 5
      (by decide) (by decide) rfl⟩

/-! ## helpers.ts : getRandomId, and event-target-identity.ts -/

/-- The marker-pattern character class `[a-z0-9]`. -/
def isMarkerIdChar (c : Char) : Bool :=
  ('a' ≤ c && c ≤ 'z') || ('0' ≤ c && c ≤ '9')

/-- The base-36 digit alphabet used by `Number.prototype.toString(36)`. -/
def digitChars : List Char := str "0123456789abcdefghijklmnopqrstuvwxyz"

/-- The base-36 digit for `n < 36`. -/
def digit36 (n : ℕ) : Char := digitChars.getD n '0'

/-- `v.toString(36)` restricted to byte values (`v < 256 < 36²`): one digit
below 36, otherwise two digits. -/
def byteToBase36 (n : ℕ) : List Char :=
  if n < 36 then [digit36 n] else [digit36 (n / 36), digit36 (n % 36)]

/-- The crypto path of `getRandomId` from `helpers.ts`:
`Array.from(crypto.getRandomValues(new Uint8Array(10))).map(v => v.toString(36)).join("")`,
parameterized by the ten drawn bytes (each `< 256`). The `Math.random`
fallback path (taken only when `window.crypto` is absent) likewise yields a
variable-length base-36 string and is not modelled separately. -/
def getRandomId (cryptoBytes : List ℕ) : List Char :=
  (cryptoBytes.map byteToBase36).flatten

/-- The marker attribute name built by `TargetIdentity.associateEvent`:
`` `data-relay-${eventType}-${identity.id}` ``. -/
def markerAttrName (eventType id : List Char) : List Char :=
  str "data-relay-" ++ eventType ++ str "-" ++ id

/-- `TargetIndentity.createPattern(eventType)` from `event-target-identity.ts`:
the regex `` ^data-relay-${eventType}-([a-z0-9]{10})$ `` as a matcher
returning the captured group. Event types are DOM event names (ASCII
letters), so the interpolated event type is a literal in the pattern. -/
def markerCapture (eventType s : List Char) : Option (List Char) :=
  let pre := str "data-relay-" ++ eventType ++ str "-"
  if pre.isPrefixOf s then
    let rest := s.drop pre.length
    if rest.length = 10 && rest.all isMarkerIdChar then some rest else none
  else none

/-- `EventTargetIdentityValue` from `event-target-identity.ts`: the identity
id plus the set of associated event types (a JS `Set`, insertion-ordered). -/
structure EventTargetIdentityValue where
  id : List Char
  associatedEvents : List (List Char) := []
  deriving DecidableEq, Repr

/-- `EventTargetIdentityValue.hasEvent`. -/
def EventTargetIdentityValue.hasEvent (i : EventTargetIdentityValue)
    (eventType : List Char) : Bool :=
  decide (eventType ∈ i.associatedEvents)

/-- `EventTargetIdentityValue.setEvent` (`Set.prototype.add`). -/
def EventTargetIdentityValue.setEvent (i : EventTargetIdentityValue)
    (eventType : List Char) : EventTargetIdentityValue :=
  if i.hasEvent eventType then i
  else { i with associatedEvents := i.associatedEvents ++ [eventType] }

/-- A DOM element as seen by the identity registry: its attribute names (all
marker attributes carry the value `""`, so only presence matters) and the
optional attached identity. -/
structure TargetElement where
  attributes : List (List Char) := []
  identity : Option EventTargetIdentityValue := none
  deriving DecidableEq, Repr

/-- `Element.setAttribute(attr, "")`: record the attribute name (a no-op on
names when already present). -/
def setAttribute (e : TargetElement) (attr : List Char) : TargetElement :=
  if attr ∈ e.attributes then e else { e with attributes := e.attributes ++ [attr] }

namespace TargetIdentity

/-- `TargetIdentity.define`: return the existing identity, or attach a new
immutable identity whose id is the next `getRandomId()` output (passed here
as `freshId`). -/
def define (e : TargetElement) (freshId : List Char) :
    EventTargetIdentityValue × TargetElement :=
  match e.identity with
  | some identity => (identity, e)
  | none =>
      let identity : EventTargetIdentityValue := { id := freshId }
      (identity, { e with identity := some identity })

/-- `TargetIdentity.associateEvent`: ensure the identity, compute the marker
attribute name, and — only if the event type is not yet associated — set the
attribute and record the association. Returns the attribute name either
way. -/
def associateEvent (e : TargetElement) (eventType freshId : List Char) :
    List Char × TargetElement :=
  let d := define e freshId
  let identity := d.1
  let e1 := d.2
  let attr := markerAttrName eventType identity.id
  if identity.hasEvent eventType then (attr, e1)
  else
    let e2 := setAttribute e1 attr
    (attr, { e2 with identity := some (identity.setEvent eventType) })

end TargetIdentity

/-! ### Lemmas about getRandomId and the marker pattern -/

theorem digit36_isMarkerIdChar : ∀ n : ℕ, n < 36 → isMarkerIdChar (digit36 n) = true := by
  decide

theorem byteToBase36_ne_nil (n : ℕ) : byteToBase36 n ≠ [] := by
  unfold byteToBase36
  split <;> simp

theorem getRandomId_length_ge (bytes : List ℕ) :
    bytes.length ≤ (getRandomId bytes).length := by
  induction bytes with
  | nil => simp [getRandomId]
  | cons b bs ih =>
      have hb : 1 ≤ (byteToBase36 b).length :=
        List.length_pos.2 (byteToBase36_ne_nil b)
      simp only [getRandomId, List.map_cons, List.flatten_cons, List.length_append,
        List.length_cons] at *
      omega

theorem getRandomId_cons (b : ℕ) (bs : List ℕ) :
    getRandomId (b :: bs) = byteToBase36 b ++ getRandomId bs := by
  simp [getRandomId]

theorem getRandomId_all_small (bytes : List ℕ) (h : ∀ b ∈ bytes, b < 36) :
    (getRandomId bytes).length = bytes.length
    ∧ (getRandomId bytes).all isMarkerIdChar = true := by
  induction bytes with
  | nil => simp [getRandomId]
  | cons b bs ih =>
      have hb : b < 36 := h b (List.mem_cons_self b bs)
      have hrest := ih (fun b' hb' => h b' (List.mem_cons_of_mem b hb'))
      have hsm : byteToBase36 b = [digit36 b] := if_pos hb
      refine ⟨?_, ?_⟩
      · rw [getRandomId_cons, hsm, List.length_append, hrest.1]
        simp [Nat.add_comm]
      · rw [getRandomId_cons, hsm, List.all_append, hrest.2]
        simp [digit36_isMarkerIdChar b hb]

theorem getRandomId_has_large (bytes : List ℕ) (h : ∃ b ∈ bytes, 36 ≤ b) :
    bytes.length < (getRandomId bytes).length := by
  induction bytes with
  | nil => rcases h with ⟨b, hb, _⟩; cases hb
  | cons b bs ih =>
      rcases h with ⟨b', hb', hbig⟩
      rcases List.mem_cons.1 hb' with rfl | hmem
      · have h2 : (byteToBase36 b').length = 2 := by
          unfold byteToBase36
          rw [if_neg (by omega)]
          rfl
        have hge := getRandomId_length_ge bs
        rw [getRandomId_cons, List.length_append, h2]
        simp only [List.length_cons]
        omega
      · have hb1 : 1 ≤ (byteToBase36 b).length :=
          List.length_pos.2 (byteToBase36_ne_nil b)
        have hlt := ih ⟨b', hmem, hbig⟩
        rw [getRandomId_cons, List.length_append]
        simp only [List.length_cons]
        omega

theorem markerCapture_of_attr (eventType id : List Char) :
    markerCapture eventType (markerAttrName eventType id) =
      if id.length = 10 && id.all isMarkerIdChar then some id else none := by
  have hpre : (str "data-relay-" ++ eventType ++ str "-").isPrefixOf
      (str "data-relay-" ++ eventType ++ str "-" ++ id) = true :=
    List.isPrefixOf_iff_prefix.2
      ((str "data-relay-" ++ eventType ++ str "-").prefix_append id)
  simp only [markerCapture, markerAttrName, hpre, if_true, List.drop_left]

theorem markerCapture_some_inv (eventType s id : List Char)
    (h : markerCapture eventType s = some id) :
    s = markerAttrName eventType id ∧ id.length = 10 ∧ id.all isMarkerIdChar = true := by
  simp only [markerCapture] at h
  by_cases hpre : (str "data-relay-" ++ eventType ++ str "-").isPrefixOf s = true
  · rw [if_pos hpre] at h
    by_cases hrest : (decide ((s.drop (str "data-relay-" ++ eventType ++ str "-").length).length = 10)
        && (s.drop (str "data-relay-" ++ eventType ++ str "-").length).all isMarkerIdChar) = true
    · rw [if_pos hrest] at h
      obtain ⟨t, ht⟩ := List.isPrefixOf_iff_prefix.1 hpre
      have hid : id = s.drop (str "data-relay-" ++ eventType ++ str "-").length :=
        (Option.some_inj.1 h).symm
      have hdrop : s.drop (str "data-relay-" ++ eventType ++ str "-").length = t := by
        rw [← ht, List.drop_left]
      rw [Bool.and_eq_true] at hrest
      refine ⟨?_, ?_, ?_⟩
      · rw [hid, hdrop, markerAttrName, ← ht]
      · rw [hid]
        simpa using hrest.1
      · rw [hid]
        exact hrest.2
    · rw [if_neg hrest] at h
      cases h
  · rw [if_neg hpre] at h
    cases h

/-! ## Claim C4 -/

/-- C4 counterexample: with the ten random bytes all equal to `255` (a
possible `crypto.getRandomValues` draw), `getRandomId` encodes each byte as
the two base-36 digits `"73"`, so the generated id has 20 characters and the
marker attribute written by `associateEvent` does not match
`createPattern("click")`, refuting "every generated attribute name matches
the pattern". -/
theorem c4_marker_pattern_counterexample :
    (TargetIdentity.associateEvent { } (str "click")
        (getRandomId (List.replicate 10 255))).1 =
      markerAttrName (str "click") (getRandomId (List.replicate 10 255))
    ∧ (getRandomId (List.replicate 10 255)).length = 20
    ∧ markerCapture (str "click")
        (markerAttrName (str "click") (getRandomId (List.replicate 10 255))) =
          none := by
  refine ⟨rfl, by decide, by decide⟩

/-- C4 (amended): every string matching `createPattern(eventType)` is exactly
a marker attribute for that event type whose embedded id is 10 characters of
`[a-z0-9]` (the capture being that id); a generated attribute matches the
pattern when every one of the ten random bytes is below 36 (each then
encoding to a single base-36 digit); but when some byte is at least 36 the
generated id is longer than 10 characters and the generated attribute does
not match the pattern. -/
theorem c4_marker_pattern_amended (eventType : List Char) (bytes : List ℕ)
    (hlen : bytes.length = 10) :
    (∀ s id, markerCapture eventType s = some id →
        s = markerAttrName eventType id ∧ id.length = 10
          ∧ id.all isMarkerIdChar = true)
    ∧ ((∀ b ∈ bytes, b < 36) →
        markerCapture eventType (markerAttrName eventType (getRandomId bytes)) =
          some (getRandomId bytes))
    ∧ ((∃ b ∈ bytes, 36 ≤ b) →
        markerCapture eventType (markerAttrName eventType (getRandomId bytes)) =
          none) := by
  refine ⟨fun s id h => markerCapture_some_inv eventType s id h, ?_, ?_⟩
  · intro hsmall
    obtain ⟨h1, h2⟩ := getRandomId_all_small bytes hsmall
    rw [markerCapture_of_attr, if_pos]
    rw [h1, hlen, h2]
    simp
  · intro hlarge
    have hgt := getRandomId_has_large bytes hlarge
    rw [markerCapture_of_attr, if_neg]
    intro hcon
    rw [Bool.and_eq_true] at hcon
    have : (getRandomId bytes).length = 10 := by simpa using hcon.1
    omega

/-- Witness for C4's amended theorem at event type `"click"` and bytes all
`5`. -/
theorem c4_marker_pattern_amended_witness :
    (List.replicate 10 5).length = 10
    ∧ ((∀ s id, markerCapture (str "click") s = some id →
          s = markerAttrName (str "click") id ∧ id.length = 10
            ∧ id.all isMarkerIdChar = true)
      ∧ ((∀ b ∈ List.replicate 10 5, b < 36) →
          markerCapture (str "click")
              (markerAttrName (str "click") (getRandomId (List.replicate 10 5))) =
            some (getRandomId (List.replicate 10 5)))
      ∧ ((∃ b ∈ List.replicate 10 5, 36 ≤ b) →
          markerCapture (str "click")
              (markerAttrName (str "click") (getRandomId (List.replicate 10 5))) =
            none)) :=
  ⟨by decide, c4_marker_pattern_amended (str "click") (List.replicate 10 5) (by decide)⟩

/-! ## Claim C7 -/

theorem markerAttrName_inj_left {a b id : List Char}
    (h : markerAttrName a id = markerAttrName b id) : a = b := by
  unfold markerAttrName at h
  exact List.append_cancel_left
    (List.append_cancel_right (List.append_cancel_right h))

theorem hasEvent_iff (i : EventTargetIdentityValue) (ev : List Char) :
    i.hasEvent ev = true ↔ ev ∈ i.associatedEvents := by
  simp [EventTargetIdentityValue.hasEvent]

theorem associateEvent_of_some {e : TargetElement} {i : EventTargetIdentityValue}
    (ev fresh : List Char) (hi : e.identity = some i) :
    TargetIdentity.associateEvent e ev fresh =
      if i.hasEvent ev then (markerAttrName ev i.id, e)
      else (markerAttrName ev i.id,
        { setAttribute e (markerAttrName ev i.id) with
            identity := some (i.setEvent ev) }) := by
  unfold TargetIdentity.associateEvent TargetIdentity.define
  rw [hi]

theorem associateEvent_of_none {e : TargetElement} (ev fresh : List Char)
    (hn : e.identity = none) :
    TargetIdentity.associateEvent e ev fresh =
      (markerAttrName ev fresh,
        { setAttribute { e with identity := some { id := fresh } }
              (markerAttrName ev fresh) with
            identity := some (EventTargetIdentityValue.setEvent { id := fresh } ev) }) := by
  unfold TargetIdentity.associateEvent TargetIdentity.define
  rw [hn]
  have hh : EventTargetIdentityValue.hasEvent { id := fresh } ev = false := by
    simp [EventTargetIdentityValue.hasEvent]
  simp [hh]

/-- The marker invariant of the spec: a marker attribute for the node's
identity exists on the node iff the association set contains that event
type. -/
def markerInvariant (e : TargetElement) : Prop :=
  ∀ i, e.identity = some i →
    ∀ ev', (markerAttrName ev' i.id ∈ e.attributes ↔ ev' ∈ i.associatedEvents)

theorem filter_eq_singleton_append {α : Type} [DecidableEq α] (l : List α) (a : α)
    (h : a ∉ l) : (l ++ [a]).filter (fun x => x = a) = [a] := by
  rw [List.filter_append,
    List.filter_eq_nil_iff.2 (fun x hx => by
      simp only [decide_eq_true_eq]
      intro hxa
      exact h (hxa ▸ hx))]
  simp

theorem filter_eq_singleton_of_nodup {α : Type} [DecidableEq α] :
    ∀ (l : List α) (a : α), l.Nodup → a ∈ l → l.filter (fun x => x = a) = [a] := by
  intro l
  induction l with
  | nil => intro a _ h; cases h
  | cons b l ih =>
      intro a hnd hmem
      rw [List.nodup_cons] at hnd
      rcases List.mem_cons.1 hmem with rfl | hal
      · rw [List.filter_cons_of_pos (by simp),
          List.filter_eq_nil_iff.2 (fun x hx => by
            simp only [decide_eq_true_eq]
            intro hxa
            exact hnd.1 (hxa ▸ hx))]
      · have hba : ¬b = a := fun hba => hnd.1 (hba ▸ hal)
        rw [List.filter_cons_of_neg (by simpa using hba), ih a hnd.2 hal]

/-- C7: `associateEvent` is idempotent and preserves the marker invariant:
calling it twice returns the same marker attribute name both times, the
second call leaves the element unchanged, the marker attribute is present
exactly once after the first call, and after every call the marker attribute
for an event type exists on the node iff the node's association set contains
that event type. Hypotheses: the element's attribute names are duplicate-free,
the marker invariant holds initially, and the freshly generated id does not
collide with an existing marker attribute when the element has no identity
yet. -/
theorem c7_associate_event_idempotent (e : TargetElement) (ev fresh fresh2 : List Char)
    (hnd : e.attributes.Nodup)
    (hInv : markerInvariant e)
    (hfresh : e.identity = none → ∀ ev', markerAttrName ev' fresh ∉ e.attributes) :
    (TargetIdentity.associateEvent (TargetIdentity.associateEvent e ev fresh).2
        ev fresh2).1 = (TargetIdentity.associateEvent e ev fresh).1
    ∧ (TargetIdentity.associateEvent (TargetIdentity.associateEvent e ev fresh).2
        ev fresh2).2 = (TargetIdentity.associateEvent e ev fresh).2
    ∧ (TargetIdentity.associateEvent e ev fresh).1 ∈
        (TargetIdentity.associateEvent e ev fresh).2.attributes
    ∧ (TargetIdentity.associateEvent e ev fresh).2.attributes.filter
        (fun a => a = (TargetIdentity.associateEvent e ev fresh).1) =
          [(TargetIdentity.associateEvent e ev fresh).1]
    ∧ markerInvariant (TargetIdentity.associateEvent e ev fresh).2 := by
  cases hid : e.identity with
  | none =>
      have hf := hfresh hid
      have hnm : markerAttrName ev fresh ∉ e.attributes := hf ev
      have h1 := associateEvent_of_none ev fresh hid
      have hsetA : setAttribute { e with identity := some { id := fresh } }
          (markerAttrName ev fresh) =
          { e with
              attributes := e.attributes ++ [markerAttrName ev fresh]
              identity := some { id := fresh } } := by
        simp [setAttribute, hnm]
      have hsetE : EventTargetIdentityValue.setEvent { id := fresh } ev =
          { id := fresh, associatedEvents := [ev] } := by
        simp [EventTargetIdentityValue.setEvent, EventTargetIdentityValue.hasEvent]
      have he1 : (TargetIdentity.associateEvent e ev fresh).2 =
          { attributes := e.attributes ++ [markerAttrName ev fresh]
            identity := some { id := fresh, associatedEvents := [ev] } } := by
        rw [h1, hsetA, hsetE]
      have ha1 : (TargetIdentity.associateEvent e ev fresh).1 =
          markerAttrName ev fresh := by rw [h1]
      have hi1 : (TargetIdentity.associateEvent e ev fresh).2.identity =
          some { id := fresh, associatedEvents := [ev] } := by rw [he1]
      have hh2 : EventTargetIdentityValue.hasEvent
          { id := fresh, associatedEvents := [ev] } ev = true := by
        simp [EventTargetIdentityValue.hasEvent]
      have h2 := associateEvent_of_some ev fresh2 hi1
      rw [hh2, if_pos rfl] at h2
      refine ⟨?_, ?_, ?_, ?_, ?_⟩
      · rw [h2, ha1]
      · rw [h2]
      · rw [ha1, he1]
        exact List.mem_append_right _ (List.mem_singleton_self _)
      · rw [ha1, he1]
        exact filter_eq_singleton_append e.attributes (markerAttrName ev fresh) hnm
      · intro i' hi' ev'
        rw [he1] at hi'
        simp only [Option.some_inj] at hi'
        subst hi'
        rw [he1]
        constructor
        · intro hm
          rcases List.mem_append.1 hm with hin | hsing
          · exact absurd hin (hf ev')
          · have := List.mem_singleton.1 hsing
            have hev : ev' = ev := markerAttrName_inj_left this
            simp [hev]
        · intro hm
          have hev : ev' = ev := List.mem_singleton.1 hm
          subst hev
          exact List.mem_append_right _ (List.mem_singleton_self _)
  | some i =>
      have h1 := associateEvent_of_some ev fresh hid
      by_cases hhas : i.hasEvent ev
      · rw [if_pos hhas] at h1
        have hmem : markerAttrName ev i.id ∈ e.attributes :=
          (hInv i hid ev).2 ((hasEvent_iff i ev).1 hhas)
        have h2 := associateEvent_of_some ev fresh2 hid
        rw [if_pos hhas] at h2
        refine ⟨?_, ?_, ?_, ?_, ?_⟩
        · rw [h1]
          show (TargetIdentity.associateEvent e ev fresh2).1 = markerAttrName ev i.id
          rw [h2]
        · rw [h1]
          show (TargetIdentity.associateEvent e ev fresh2).2 = e
          rw [h2]
        · rw [h1]
          exact hmem
        · rw [h1]
          exact filter_eq_singleton_of_nodup e.attributes (markerAttrName ev i.id)
            hnd hmem
        · rw [h1]
          exact hInv
      · rw [if_neg hhas] at h1
        have hnotmem : markerAttrName ev i.id ∉ e.attributes := by
          intro hm
          exact hhas ((hasEvent_iff i ev).2 ((hInv i hid ev).1 hm))
        have hsetA : setAttribute e (markerAttrName ev i.id) =
            { e with attributes := e.attributes ++ [markerAttrName ev i.id] } := by
          simp [setAttribute, hnotmem]
        have hsetE : i.setEvent ev =
            { id := i.id, associatedEvents := i.associatedEvents ++ [ev] } := by
          simp [EventTargetIdentityValue.setEvent, hhas]
        have he1 : (TargetIdentity.associateEvent e ev fresh).2 =
            { attributes := e.attributes ++ [markerAttrName ev i.id]
              identity := some
                { id := i.id, associatedEvents := i.associatedEvents ++ [ev] } } := by
          rw [h1, hsetA, hsetE]
        have ha1 : (TargetIdentity.associateEvent e ev fresh).1 =
            markerAttrName ev i.id := by rw [h1]
        have hi1 : (TargetIdentity.associateEvent e ev fresh).2.identity =
            some { id := i.id, associatedEvents := i.associatedEvents ++ [ev] } := by
          rw [he1]
        have hh2 : EventTargetIdentityValue.hasEvent
            { id := i.id, associatedEvents := i.associatedEvents ++ [ev] } ev = true := by
          simp [EventTargetIdentityValue.hasEvent]
        have h2 := associateEvent_of_some ev fresh2 hi1
        rw [hh2, if_pos rfl] at h2
        refine ⟨?_, ?_, ?_, ?_, ?_⟩
        · rw [h2, ha1]
        · rw [h2]
        · rw [ha1, he1]
          exact List.mem_append_right _ (List.mem_singleton_self _)
        · rw [ha1, he1]
          exact filter_eq_singleton_append e.attributes (markerAttrName ev i.id)
            hnotmem
        · intro i' hi' ev'
          rw [he1] at hi'
          simp only [Option.some_inj] at hi'
          subst hi'
          rw [he1]
          by_cases hev' : ev' = ev
          · subst hev'
            exact iff_of_true (List.mem_append_right _ (List.mem_singleton_self _))
              (List.mem_append_right _ (List.mem_singleton_self _))
          · have hne : markerAttrName ev' i.id ≠ markerAttrName ev i.id :=
              fun hcontra => hev' (markerAttrName_inj_left hcontra)
            rw [List.mem_append, List.mem_append]
            simp only [List.mem_singleton, hne, hev', or_false]
            exact hInv i hid ev'

/-- Witness for C7: a fresh element, event type `"click"`, generated ids
`"ab"` then `"cd"`. -/
theorem c7_associate_event_idempotent_witness :
    (({ } : TargetElement).attributes.Nodup
      ∧ markerInvariant ({ } : TargetElement)
      ∧ (({ } : TargetElement).identity = none →
          ∀ ev', markerAttrName ev' (str "ab") ∉ ({ } : TargetElement).attributes))
    ∧ ((TargetIdentity.associateEvent
          (TargetIdentity.associateEvent { } (str "click") (str "ab")).2
          (str "click") (str "cd")).1 =
        (TargetIdentity.associateEvent { } (str "click") (str "ab")).1
      ∧ (TargetIdentity.associateEvent
          (TargetIdentity.associateEvent { } (str "click") (str "ab")).2
          (str "click") (str "cd")).2 =
        (TargetIdentity.associateEvent { } (str "click") (str "ab")).2
      ∧ (TargetIdentity.associateEvent { } (str "click") (str "ab")).1 ∈
          (TargetIdentity.associateEvent { } (str "click") (str "ab")).2.attributes
      ∧ (TargetIdentity.associateEvent { } (str "click") (str "ab")).2.attributes.filter
          (fun a => a = (TargetIdentity.associateEvent { } (str "click") (str "ab")).1) =
            [(TargetIdentity.associateEvent { } (str "click") (str "ab")).1]
      ∧ markerInvariant (TargetIdentity.associateEvent { } (str "click") (str "ab")).2) :=
  ⟨⟨by decide, fun i h => Option.noConfusion h, fun _ ev' h => List.not_mem_nil _ h⟩,
    c7_associate_event_idempotent { } (str "click") (str "ab") (str "cd")
      (by decide) (fun i h => Option.noConfusion h)
      (fun _ ev' h => List.not_mem_nil _ h)⟩

/-! ## event-target-identity.ts : QueriesEventMap -/

/-- The selector kinds of `QueriesEventMap` (`"class" | "id" | "tag" | "data"
| "complex"`). -/
inductive SelectorKind
  | «class»
  | id
  | tag
  | data
  | complex
  deriving DecidableEq, Repr

/-- A classified selector (`CssSelector`). `value` is an `Option` because the
`data` branch of `_parseQuery` reads `match[2]`, which can be `undefined`. -/
structure CssSelector where
  type : SelectorKind
  value : Option (List Char)
  deriving DecidableEq, Repr

/-- The regex word-or-hyphen class `[\w-]` (ASCII `\w` plus `-`). -/
def isWordOrHyphen (c : Char) : Bool :=
  ('a' ≤ c && c ≤ 'z') || ('A' ≤ c && c ≤ 'Z') || ('0' ≤ c && c ≤ '9')
    || c = '_' || c = '-'

/-- An ASCII letter (`[a-zA-Z]`). -/
def isAsciiLetter (c : Char) : Bool :=
  ('a' ≤ c && c ≤ 'z') || ('A' ≤ c && c ≤ 'Z')

/-- The tag-pattern tail class `[a-zA-Z0-9-]`. -/
def isTagChar (c : Char) : Bool :=
  isAsciiLetter c || ('0' ≤ c && c ≤ '9') || c = '-'

/-- The class pattern `/^\.[\w-]+$/`. -/
def testClassPattern : List Char → Bool
  | '.' :: rest => !rest.isEmpty && rest.all isWordOrHyphen
  | _ => false

/-- The id pattern `/^#[\w-]+$/`. -/
def testIdPattern : List Char → Bool
  | '#' :: rest => !rest.isEmpty && rest.all isWordOrHyphen
  | _ => false

/-- The tag pattern `/^[a-zA-Z][a-zA-Z0-9-]*$/`. -/
def testTagPattern : List Char → Bool
  | c :: rest => isAsciiLetter c && rest.all isTagChar
  | [] => false

/-- `RegExp.prototype.exec` for the marker pattern: on a match, the result
array holds the full match at index 0 and the single capture group at
index 1 (there is no index 2). -/
def markerExec (eventType s : List Char) : Option (List (Option (List Char))) :=
  (markerCapture eventType s).map (fun id => [some s, some id])

/-- `String.prototype.toLowerCase` (the selector alphabets are ASCII). -/
def jsToLowerCase (s : List Char) : List Char := s.map Char.toLower

/-- `QueriesEventMap._parseQuery`: the ordered pattern tests of the source,
in source order — class, id, tag (the comment says `4.`), then the marker
("data") pattern (the comment says `3.`); the `data` branch returns
`match[2]`, one past the only capture group. -/
def parseQuery (eventType query : List Char) : CssSelector :=
  if testClassPattern query then { type := .«class», value := some query.tail }
  else if testIdPattern query then { type := .id, value := some query.tail }
  else if testTagPattern query then { type := .tag, value := some (jsToLowerCase query) }
  else
    match markerExec eventType query with
    | some m => { type := .data, value := m.getD 2 none }
    | none => { type := .complex, value := some query }

/-- A `QueryMap` (`Map<string, Set<EventListenerHandler>>`): insertion-ordered
entries; the key is an `Option` because the `data` selector value can be
`undefined`, and a JS `Map` accepts `undefined` keys. Listener handles are
modelled as naturals, a listener set as an insertion-ordered duplicate-free
list. -/
def QueryMap : Type := List (Option (List Char) × List ℕ)

/-- The state of a `QueriesEventMap`: the event type and the per-kind query
maps, each initialized to `null` (`none`) by the constructor. -/
structure QueriesEventMap where
  eventType : List Char
  queries : SelectorKind → Option QueryMap

/-- A freshly constructed `QueriesEventMap`. -/
def QueriesEventMap.init (eventType : List Char) : QueriesEventMap :=
  { eventType := eventType, queries := fun _ => none }

/-- `QueriesEventMap.set`, together with the listener timestamp store
(`listener[LISTENER_TIMESTAMP]`, keyed by handle) and the current
`performance.now()` value. Empty/whitespace queries return immediately.
Otherwise the query is classified and the group map for its kind is fetched
through `ensureLookupValue(this._queries, selector.type, () => new Map())`;
the record branch of `ensureLookupValue` installs the default only when the
stored value is `undefined`, and `_queries` initializes every kind to `null`,
which is not `undefined`, so the stored value — `null` until some other code
replaces it — is returned as-is; member access on `null` in the second
`ensureLookupValue` call then throws a `TypeError`. On the (for a `null`-free
map) surviving path, the listener set is looked up or created, an
already-present listener is a no-op, and otherwise the listener is stamped
unconditionally (`listener[LISTENER_TIMESTAMP] = performance.now()`) and
appended. -/
def QueriesEventMap.set (qem : QueriesEventMap) (timestamps : ℕ → Option ℕ)
    (now : ℕ) (query : List Char) (listener : ℕ) :
    Except JsError (QueriesEventMap × (ℕ → Option ℕ)) :=
  if (jsTrim query).length = 0 then .ok (qem, timestamps)
  else
    let selector := parseQuery qem.eventType query
    match qem.queries selector.type with
    | none => .error .typeError
    | some m =>
        let m1 := if jsMapHas m selector.value then m
          else jsMapSet m selector.value []
        let listeners := (jsMapGet m1 selector.value).getD []
        if listener ∈ listeners then
          .ok ({ qem with queries := fun k =>
              if k = selector.type then some m1 else qem.queries k },
            timestamps)
        else
          let m2 := jsMapSet m1 selector.value (listeners ++ [listener])
          .ok ({ qem with queries := fun k =>
              if k = selector.type then some m2 else qem.queries k },
            fun l => if l = listener then some now else timestamps l)

/-- A concrete node as seen by `resolveListeners`: id, tag name, class list,
the relay identity id when `TargetIndentity.is(target)` holds, and the
external `Element.matches` capability for complex selectors. -/
structure TargetNode where
  id : List Char
  tagName : List Char
  classList : List (List Char)
  relayIdentity : Option (List Char)
  nodeMatches : List Char → Bool

/-- `QueriesEventMap._getGroup`:
`[...(this._queries[kind]?.get(key) ?? [])]`. -/
def QueriesEventMap.getGroup (qem : QueriesEventMap) (kind : SelectorKind)
    (key : List Char) : List ℕ :=
  match qem.queries kind with
  | some m => (jsMapGet m (some key)).getD []
  | none => []

/-- The candidate groups collected by `resolveListeners`, in source order:
id group (if the node has an id), tag group (lower-cased tag name), one class
group per class, the data group (only when the node carries a relay
identity), and one group per registered complex selector the node matches. -/
def QueriesEventMap.candidateGroups (qem : QueriesEventMap)
    (target : TargetNode) : List (List ℕ) :=
  (if target.id ≠ [] then [qem.getGroup .id target.id] else [])
  ++ (if jsToLowerCase target.tagName ≠ [] then
        [qem.getGroup .tag (jsToLowerCase target.tagName)] else [])
  ++ (if target.classList.length ≠ 0 then
        target.classList.map (fun c => qem.getGroup .«class» c) else [])
  ++ (match target.relayIdentity with
      | some rid => [qem.getGroup .data rid]
      | none => [])
  ++ (match qem.queries .complex with
      | some m =>
          (m.filter (fun p =>
            match p.1 with
            | some sel => target.nodeMatches sel
            | none => false)).map (fun p => p.2)
      | none => [])

/-- `QueriesEventMap.resolveListeners`: merge all candidate groups by
ascending listener timestamp
(`mergeAllSorted(groups, (a, b) => getTimestamp(a) - getTimestamp(b))`). -/
def QueriesEventMap.resolveListeners (qem : QueriesEventMap)
    (target : TargetNode) (tsOf : ℕ → ℕ) : List ℕ :=
  mergeAllSorted (tsCompare tsOf) (qem.candidateGroups target)

/-! ## Claim C8 -/

/-- C8: for every empty or whitespace-only selector string and every
listener, registration is a silent no-op: `set` returns without raising an
error, the listener index is completely unchanged, and the listener is not
stamped with a timestamp. -/
theorem c8_whitespace_selector_noop (qem : QueriesEventMap)
    (timestamps : ℕ → Option ℕ) (now : ℕ) (query : List Char) (listener : ℕ)
    (hws : ∀ c ∈ query, jsWhitespace c = true) :
    QueriesEventMap.set qem timestamps now query listener = .ok (qem, timestamps) := by
  unfold QueriesEventMap.set
  rw [if_pos]
  rw [jsTrim_eq_nil_of_all_ws hws]
  rfl

/-- Witness for C8: a two-space selector on a fresh index. -/
theorem c8_whitespace_selector_noop_witness :
    (∀ c ∈ str "  ", jsWhitespace c = true)
    ∧ QueriesEventMap.set (QueriesEventMap.init (str "click")) (fun _ => none) 5
        (str "  ") 3 = .ok (QueriesEventMap.init (str "click"), fun _ => none) :=
  ⟨by decide,
    c8_whitespace_selector_noop (QueriesEventMap.init (str "click")) (fun _ => none)
      5 (str "  ") 3 (by decide)⟩

/-! ## Claim C2 -/

/-- C2: the scenario of the claim — registering one callback first under
selector `".a"` and then under selector `"#b"` on a fresh `QueriesEventMap`
— never reaches the timestamp stamping at all: both `set` calls throw a
`TypeError`, because `ensureLookupValue` installs the per-kind group map only
when the stored record value is `undefined`, while the constructor
initializes every kind to `null`, so the subsequent member access on the
returned `null` throws. (The stamping statement itself, were it reachable,
is the unconditional `listener[LISTENER_TIMESTAMP] = performance.now()`, not
a stamp-only-if-missing.) -/
theorem c2_set_throws_before_stamping :
    QueriesEventMap.set (QueriesEventMap.init (str "click")) (fun _ => none) 0
        (str ".a") 7 = .error .typeError
    ∧ QueriesEventMap.set (QueriesEventMap.init (str "click")) (fun _ => none) 1
        (str "#b") 7 = .error .typeError :=
  ⟨rfl, rfl⟩

/-! ## Claim C3 -/

/-- C3: classification of a string matching the event-type marker pattern
does not return the `data` ("marker") kind: the tag test
`/^[a-zA-Z][a-zA-Z0-9-]*$/` is run before the marker test and every marker
string (letters, digits and hyphens) matches it, so `_parseQuery` returns
kind `tag` with the lower-cased string — here on the concrete marker string
`"data-relay-click-a1b2c3d4e5"`, which the marker pattern itself does match
(second conjunct). The intended `marker` outcome is doubly unreachable: the
`data` branch reads `match[2]`, one past the pattern's only capture group
(third conjunct evaluates the branch's would-be value). -/
theorem c3_marker_string_classified_as_tag :
    parseQuery (str "click") (str "data-relay-click-a1b2c3d4e5") =
      { type := SelectorKind.tag, value := some (str "data-relay-click-a1b2c3d4e5") }
    ∧ (markerCapture (str "click") (str "data-relay-click-a1b2c3d4e5")).isSome = true
    ∧ ((markerExec (str "click") (str "data-relay-click-a1b2c3d4e5")).getD []).getD 2
        none = none :=
  ⟨by decide, by decide, by decide⟩

/-! ## Claim C9 -/

theorem mergeAllSorted_perm {α : Type} (compare : α → α → Int)
    (sortedGroups : List (List α)) :
    (mergeAllSorted compare sortedGroups).Perm sortedGroups.flatten := by
  rw [mergeAllSorted_eq_plain_foldl]
  simpa using foldl_merge_perm compare sortedGroups []

theorem count_flatten_eq_sum (L : List (List ℕ)) (a : ℕ) :
    L.flatten.count a = (L.map (fun g => g.count a)).sum := by
  induction L with
  | nil => rfl
  | cons g L ih => simp [List.count_append, ih]

/-- A listener index whose class group for `"foo"` and id group for `"bar"`
both contain handle `0`. -/
def c9ExampleMap : QueriesEventMap where
  eventType := str "click"
  queries := fun k =>
    match k with
    | .«class» => some [(some (str "foo"), [0])]
    | .id => some [(some (str "bar"), [0])]
    | _ => none

/-- A node with id `"bar"` and class `"foo"`, so both groups above apply. -/
def c9ExampleTarget : TargetNode where
  id := str "bar"
  tagName := str "div"
  classList := [str "foo"]
  relayIdentity := none
  nodeMatches := fun _ => false

/-- C9 (implicit): resolution does not deduplicate across groups — for every
index state and node, `resolveListeners` returns each handle once per
matching candidate group (its multiplicity in the output is the sum of its
multiplicities over the candidate groups); concretely, a callback registered
both in a class group and in an id group that both apply to the node appears
twice in the output. -/
theorem c9_no_cross_group_deduplication :
    (∀ (qem : QueriesEventMap) (target : TargetNode) (tsOf : ℕ → ℕ) (h : ℕ),
        (qem.resolveListeners target tsOf).count h =
          ((qem.candidateGroups target).map (fun g => g.count h)).sum)
    ∧ QueriesEventMap.resolveListeners c9ExampleMap c9ExampleTarget
        (fun _ => 0) = [0, 0] := by
  refine ⟨?_, by decide⟩
  intro qem target tsOf h
  have hperm := mergeAllSorted_perm (tsCompare tsOf) (qem.candidateGroups target)
  rw [QueriesEventMap.resolveListeners, hperm.count_eq, count_flatten_eq_sum]
